import Mathlib

/-!
Shallow embedding of the core retrieval/ranking pipeline of `jeopardy.py`:
candidate fusion, lexical top-k selection, feature extraction (train and
eval passes), the logistic-ranker reload policy, per-query ranking, and the
Precision@1 / MRR evaluator.  Machine floats are modelled as rationals; the
external neural services (sentence embedder, FAISS search, cross-encoder)
and the BM25 scorer are opaque parameters of the environment, exactly as the
spec treats them.  Python semantics modelled explicitly: `str.split()` is
whitespace splitting that drops empty fields, `dict.fromkeys` keeps the
first occurrence, `sorted` is a stable sort, and integer division by zero
raises (modelled as `none`).  `np.argsort` (default quicksort, not stable)
is specified only by its contract — some permutation of the positions sorted
by ascending score, tie order unspecified — with one admissible
determinization used to keep the candidate-gathering embedding executable;
no tie-order property of that determinization is relied on by any claim.
-/

namespace Jeopardy

/-- TOP_K = 10: number of dense (FAISS) hits. -/
def TOP_K : Nat := 10

/-- BM25_K = 50: number of BM25 hits. -/
def BM25_K : Nat := 50

/-- SNIPPET_WORDS = 500: word budget for the cross-encoder snippet. -/
def SNIPPET_WORDS : Nat := 500

/-- Python `s.lower()`: lowercase each character. -/
def lower (s : String) : String := ⟨s.data.map Char.toLower⟩

/-- Worker for `pySplit`: scan the characters, accumulating the current word
reversed, emitting it at whitespace boundaries, dropping empty fields. -/
def pySplitAux : List Char → List Char → List String
  | [], cur => if cur = [] then [] else [⟨cur.reverse⟩]
  | c :: cs, cur =>
    if c.isWhitespace then
      if cur = [] then pySplitAux cs [] else ⟨cur.reverse⟩ :: pySplitAux cs []
    else pySplitAux cs (c :: cur)

/-- Python `s.split()`: split on whitespace runs, dropping empty fields. -/
def pySplit (s : String) : List String := pySplitAux s.data []

/-- Python `s.lower().split()`, the tokenization used throughout. -/
def tokens (s : String) : List String := pySplit (lower s)

/-- Worker for `dedupFirst`: keep the first occurrence of each element,
tracking the already-seen ones. -/
def dedupFirstAux : List Nat → List Nat → List Nat
  | [], _ => []
  | a :: l, seen =>
    if a ∈ seen then dedupFirstAux l seen else a :: dedupFirstAux l (a :: seen)

/-- `list(dict.fromkeys(xs))`: deduplicate keeping the first occurrence. -/
def dedupFirst (l : List Nat) : List Nat := dedupFirstAux l []

/-- Candidate fusion (jeopardy.py lines 118 and 159):
`list(dict.fromkeys(list(idxs[0]) + top_bm.tolist()))[:TOP_K + BM25_K]`. -/
def fuseCandidates (dense lex : List Nat) : List Nat :=
  (dedupFirst (dense ++ lex)).take (TOP_K + BM25_K)

theorem mem_dedupFirstAux (l seen : List Nat) (x : Nat) :
    x ∈ dedupFirstAux l seen ↔ x ∈ l ∧ x ∉ seen := by
  induction l generalizing seen with
  | nil => simp [dedupFirstAux]
  | cons a l ih =>
    by_cases ha : a ∈ seen
    · rw [dedupFirstAux, if_pos ha, ih]
      constructor
      · rintro ⟨hl, hs⟩
        exact ⟨List.mem_cons_of_mem _ hl, hs⟩
      · rintro ⟨hal, hs⟩
        rcases List.mem_cons.mp hal with rfl | hl
        · exact absurd ha hs
        · exact ⟨hl, hs⟩
    · rw [dedupFirstAux, if_neg ha]
      constructor
      · intro hmem
        rcases List.mem_cons.mp hmem with rfl | hmem
        · exact ⟨List.mem_cons_self _ _, ha⟩
        · obtain ⟨hl, hs⟩ := (ih (a :: seen)).mp hmem
          exact ⟨List.mem_cons_of_mem _ hl,
            fun hx => hs (List.mem_cons_of_mem _ hx)⟩
      · rintro ⟨hal, hs⟩
        rcases List.mem_cons.mp hal with rfl | hl
        · exact List.mem_cons_self _ _
        · by_cases hx : x = a
          · exact hx ▸ List.mem_cons_self _ _
          · refine List.mem_cons_of_mem _ ((ih (a :: seen)).mpr ⟨hl, ?_⟩)
            intro hx'
            rcases List.mem_cons.mp hx' with h | h
            · exact hx h
            · exact hs h

theorem nodup_dedupFirstAux (l seen : List Nat) : (dedupFirstAux l seen).Nodup := by
  induction l generalizing seen with
  | nil => simp [dedupFirstAux]
  | cons a l ih =>
    by_cases ha : a ∈ seen
    · rw [dedupFirstAux, if_pos ha]
      exact ih seen
    · rw [dedupFirstAux, if_neg ha]
      refine List.nodup_cons.mpr ⟨fun hmem => ?_, ih (a :: seen)⟩
      exact ((mem_dedupFirstAux l (a :: seen) a).mp hmem).2 (List.mem_cons_self a seen)

theorem dedupFirstAux_sublist (l seen : List Nat) :
    (dedupFirstAux l seen).Sublist l := by
  induction l generalizing seen with
  | nil => simp [dedupFirstAux]
  | cons a l ih =>
    by_cases ha : a ∈ seen
    · rw [dedupFirstAux, if_pos ha]
      exact (ih seen).cons a
    · rw [dedupFirstAux, if_neg ha]
      exact (ih (a :: seen)).cons₂ a

theorem pairwise_indexOf_dedupFirstAux (l seen : List Nat) :
    (dedupFirstAux l seen).Pairwise (fun a b => l.indexOf a < l.indexOf b) := by
  induction l generalizing seen with
  | nil => simp [dedupFirstAux]
  | cons a l ih =>
    by_cases ha : a ∈ seen
    · rw [dedupFirstAux, if_pos ha]
      refine (ih seen).imp_of_mem ?_
      intro x y hx hy hlt
      have hxs := (mem_dedupFirstAux l seen x).mp hx
      have hys := (mem_dedupFirstAux l seen y).mp hy
      have hxa : a ≠ x := fun he => hxs.2 (he ▸ ha)
      have hya : a ≠ y := fun he => hys.2 (he ▸ ha)
      rw [List.indexOf_cons_ne l hxa, List.indexOf_cons_ne l hya]
      exact Nat.succ_lt_succ hlt
    · rw [dedupFirstAux, if_neg ha]
      refine List.pairwise_cons.mpr ⟨?_, ?_⟩
      · intro y hy
        have hys := (mem_dedupFirstAux l (a :: seen) y).mp hy
        have hya : a ≠ y := fun he => hys.2 (he ▸ List.mem_cons_self a seen)
        rw [List.indexOf_cons_self, List.indexOf_cons_ne l hya]
        exact Nat.succ_pos _
      · refine (ih (a :: seen)).imp_of_mem ?_
        intro x y hx hy hlt
        have hxs := (mem_dedupFirstAux l (a :: seen) x).mp hx
        have hys := (mem_dedupFirstAux l (a :: seen) y).mp hy
        have hxa : a ≠ x := fun he => hxs.2 (he ▸ List.mem_cons_self a seen)
        have hya : a ≠ y := fun he => hys.2 (he ▸ List.mem_cons_self a seen)
        rw [List.indexOf_cons_ne l hxa, List.indexOf_cons_ne l hya]
        exact Nat.succ_lt_succ hlt

theorem pairwise_indexOf_dedupFirst (l : List Nat) :
    (dedupFirst l).Pairwise (fun a b => l.indexOf a < l.indexOf b) :=
  pairwise_indexOf_dedupFirstAux l []

theorem mem_dedupFirst (l : List Nat) (x : Nat) : x ∈ dedupFirst l ↔ x ∈ l := by
  rw [dedupFirst, mem_dedupFirstAux]
  simp

theorem nodup_dedupFirst (l : List Nat) : (dedupFirst l).Nodup :=
  nodup_dedupFirstAux l []

theorem dedupFirst_sublist (l : List Nat) : (dedupFirst l).Sublist l :=
  dedupFirstAux_sublist l []

theorem length_dedupFirst_le (l : List Nat) : (dedupFirst l).length ≤ l.length :=
  (dedupFirst_sublist l).length_le

/-- C1: the fused candidate set has no duplicates, is a sublist of
(dense ++ lexical) ordered by strictly increasing first-occurrence position —
so first-seen order is preserved with dense hits first — keeps every id of
either hit list (nothing is dropped as a duplicate, since the dedup result
already fits the `TOP_K + BM25_K` cap), and its length is at most
`TOP_K + BM25_K`. -/
theorem fuseCandidates_spec (dense lex : List Nat)
    (hd : dense.length ≤ TOP_K) (hl : lex.length ≤ BM25_K) :
    (fuseCandidates dense lex).Nodup ∧
    (fuseCandidates dense lex).Sublist (dense ++ lex) ∧
    (fuseCandidates dense lex).Pairwise
      (fun a b => (dense ++ lex).indexOf a < (dense ++ lex).indexOf b) ∧
    (∀ x, x ∈ fuseCandidates dense lex ↔ x ∈ dense ++ lex) ∧
    (fuseCandidates dense lex).length ≤ TOP_K + BM25_K := by
  have hlen : (dedupFirst (dense ++ lex)).length ≤ TOP_K + BM25_K := by
    calc (dedupFirst (dense ++ lex)).length
        ≤ (dense ++ lex).length := length_dedupFirst_le _
      _ = dense.length + lex.length := List.length_append _ _
      _ ≤ TOP_K + BM25_K := Nat.add_le_add hd hl
  have htake : fuseCandidates dense lex = dedupFirst (dense ++ lex) := by
    unfold fuseCandidates
    exact List.take_of_length_le hlen
  rw [htake]
  exact ⟨nodup_dedupFirst _, dedupFirst_sublist _, pairwise_indexOf_dedupFirst _,
    fun x => mem_dedupFirst _ x, hlen⟩

/-- Witness for `fuseCandidates_spec` at concrete hit lists. -/
theorem fuseCandidates_spec_witness :
    (fuseCandidates [3, 1, 4] [1, 5, 3, 9]).Nodup ∧
    (fuseCandidates [3, 1, 4] [1, 5, 3, 9]).Sublist ([3, 1, 4] ++ [1, 5, 3, 9]) ∧
    (fuseCandidates [3, 1, 4] [1, 5, 3, 9]).Pairwise
      (fun a b => ([3, 1, 4] ++ [1, 5, 3, 9]).indexOf a <
        ([3, 1, 4] ++ [1, 5, 3, 9]).indexOf b) ∧
    (∀ x, x ∈ fuseCandidates [3, 1, 4] [1, 5, 3, 9] ↔ x ∈ [3, 1, 4] ++ [1, 5, 3, 9]) ∧
    (fuseCandidates [3, 1, 4] [1, 5, 3, 9]).length ≤ TOP_K + BM25_K :=
  fuseCandidates_spec [3, 1, 4] [1, 5, 3, 9] (by decide) (by decide)

/-- The contract of `np.argsort(scores)` with numpy's default quicksort:
SOME permutation of the positions `0..n-1` sorted by ascending score.  The
default sort is not stable, so the order among equal scores is unspecified
and no tie-break may be assumed. -/
def IsArgsortOf (perm : List Nat) (scores : List ℚ) : Prop :=
  perm.Perm (List.range scores.length) ∧
    perm.Pairwise (fun i j => scores.getD i 0 ≤ scores.getD j 0)

/-- Lexical top-k selection (jeopardy.py lines 114 and 155) as a function of
whichever ascending argsort numpy produced: `argsort_result[::-1][:k]`. -/
def topKOf (perm : List Nat) (k : Nat) : List Nat := perm.reverse.take k

/-- Comparison of ONE admissible determinization of `np.argsort`: ascending
by score, ties by ascending position.  Used only so that the
candidate-gathering embedding is executable; no tie-order property of it is
relied on by any claim. -/
def argRel (scores : List ℚ) (i j : Nat) : Prop :=
  scores.getD i 0 < scores.getD j 0 ∨
    (scores.getD i 0 = scores.getD j 0 ∧ i ≤ j)

instance argRelDecidable (scores : List ℚ) : DecidableRel (argRel scores) :=
  fun i j => by unfold argRel; exact inferInstance

/-- One admissible determinization of `np.argsort(scores)`: the positions
`0..n-1` sorted by ascending score with ties in ascending position order.
On arrays below numpy's insertion-sort cutoff (n < 16) the default
quicksort is in fact stable, so there this determinization coincides with
numpy's actual output; on larger arrays only the `IsArgsortOf` contract may
be assumed. -/
def argsort (scores : List ℚ) : List Nat :=
  (List.range scores.length).insertionSort (argRel scores)

/-- Executable lexical top-k (jeopardy.py lines 114 and 155):
`np.argsort(bm_scores)[::-1][:k]`, on the determinized argsort. -/
def topK (scores : List ℚ) (k : Nat) : List Nat :=
  (argsort scores).reverse.take k

theorem argRel_trans (scores : List ℚ) : ∀ {a b c : Nat},
    argRel scores a b → argRel scores b c → argRel scores a c := by
  intro a b c hab hbc
  unfold argRel at *
  rcases hab with h1 | ⟨e1, le1⟩ <;> rcases hbc with h2 | ⟨e2, le2⟩
  · exact .inl (h1.trans h2)
  · exact .inl (e2 ▸ h1)
  · exact .inl (e1 ▸ h2)
  · exact .inr ⟨e1.trans e2, le1.trans le2⟩

theorem argRel_total (scores : List ℚ) : ∀ a b : Nat,
    argRel scores a b ∨ argRel scores b a := by
  intro a b
  unfold argRel
  rcases lt_trichotomy (scores.getD a 0) (scores.getD b 0) with h | h | h
  · exact .inl (.inl h)
  · rcases Nat.le_total a b with hab | hab
    · exact .inl (.inr ⟨h, hab⟩)
    · exact .inr (.inr ⟨h.symm, hab⟩)
  · exact .inr (.inl h)

/-- The determinized argsort satisfies the `np.argsort` contract, so the
amended top-k guarantees apply in particular to the executable
candidate-gathering embedding. -/
theorem argsort_isArgsortOf (scores : List ℚ) :
    IsArgsortOf (argsort scores) scores := by
  refine ⟨List.perm_insertionSort _ _, ?_⟩
  haveI : IsTotal Nat (argRel scores) := ⟨argRel_total scores⟩
  haveI : IsTrans Nat (argRel scores) := ⟨fun _ _ _ => argRel_trans scores⟩
  have hsorted : (argsort scores).Pairwise (argRel scores) :=
    List.sorted_insertionSort (argRel scores) _
  refine hsorted.imp ?_
  intro i j h
  unfold argRel at h
  rcases h with h | ⟨he, _⟩
  · exact le_of_lt h
  · exact le_of_eq he

/-- C4 (counterexample): on the two-element tied array `[5, 5]` the code
returns `[1, 0]`, not the `[0, 1]` an ascending-id tie-break requires.
Below numpy's insertion-sort cutoff (n < 16) the default quicksort is
stable, so on this array `np.argsort` returns exactly `[0, 1]` and the
reversal yields `[1, 0]`; the executable `topK` coincides with numpy here. -/
theorem topK_tie_counterexample :
    topK [(5 : ℚ), 5] 2 = [1, 0] ∧ topK [(5 : ℚ), 5] 2 ≠ [0, 1] := by
  constructor
  · rfl
  · intro h
    exact absurd h (by decide)

/-- C4 (amended): for WHICHEVER ascending argsort numpy produces (its tie
order among equal scores is unspecified), `np.argsort(scores)[::-1][:k]`
returns `min k n` distinct valid document ids, sorted by descending score,
and every selected id's score is at least the score of every unselected
valid id; no tie-break order among equal scores is guaranteed. -/
theorem topK_amended_spec (scores : List ℚ) (k : Nat) (perm : List Nat)
    (h : IsArgsortOf perm scores) :
    (topKOf perm k).Nodup ∧
    (∀ a ∈ topKOf perm k, a < scores.length) ∧
    (topKOf perm k).length = min k scores.length ∧
    (topKOf perm k).Pairwise (fun i j => scores.getD j 0 ≤ scores.getD i 0) ∧
    (∀ a ∈ topKOf perm k, ∀ b, b < scores.length → b ∉ topKOf perm k →
      scores.getD b 0 ≤ scores.getD a 0) := by
  obtain ⟨hperm, hsorted⟩ := h
  have hrpm : perm.reverse.Perm (List.range scores.length) :=
    (List.reverse_perm perm).trans hperm
  have hnodup : perm.reverse.Nodup :=
    hrpm.nodup_iff.mpr (List.nodup_range _)
  have hrev : perm.reverse.Pairwise
      (fun i j => scores.getD j 0 ≤ scores.getD i 0) := by
    rw [List.pairwise_reverse]
    exact hsorted
  refine ⟨?_, ?_, ?_, ?_, ?_⟩
  · exact hnodup.sublist (List.take_sublist k perm.reverse)
  · intro a ha
    have hmem : a ∈ perm.reverse := List.mem_of_mem_take ha
    exact List.mem_range.mp (hrpm.mem_iff.mp hmem)
  · rw [topKOf, List.length_take, List.length_reverse, hperm.length_eq,
      List.length_range]
  · exact hrev.sublist (List.take_sublist k perm.reverse)
  · intro a ha b hb hbn
    have hsplit := (List.take_append_drop k perm.reverse).symm
    have hpw : ((perm.reverse.take k) ++ (perm.reverse.drop k)).Pairwise
        (fun i j => scores.getD j 0 ≤ scores.getD i 0) := by
      rw [← hsplit]
      exact hrev
    have hbmem : b ∈ perm.reverse :=
      hrpm.mem_iff.mpr (List.mem_range.mpr hb)
    have hbdrop : b ∈ perm.reverse.drop k := by
      rcases (List.mem_append.mp (hsplit ▸ hbmem)) with hmem | hmem
      · exact absurd hmem hbn
      · exact hmem
    exact (List.pairwise_append.mp hpw).2.2 a ha b hbdrop

/-- Witness for `topK_amended_spec`: `[0, 1]` is a valid ascending argsort of
`[1, 2]`, and with `k = 1` the selected id `1` scores at least the
unselected id `0`. -/
theorem topK_amended_spec_witness :
    IsArgsortOf [0, 1] [(1 : ℚ), 2] ∧ 1 ∈ topKOf [0, 1] 1 ∧
    [(1 : ℚ), 2].getD 0 0 ≤ [(1 : ℚ), 2].getD 1 0 := by
  have hargs : IsArgsortOf [0, 1] [(1 : ℚ), 2] := by
    constructor
    · decide
    · decide
  have hmem : 1 ∈ topKOf [0, 1] 1 := by decide
  exact ⟨hargs, hmem,
    (topK_amended_spec [(1 : ℚ), 2] 1 [0, 1] hargs).2.2.2.2 1 hmem 0
      (by decide) (by decide)⟩

/-- A parsed document: title, body text, lowercase categories (order kept),
lowercase section headers. -/
structure Doc where
  title : String
  text : String
  cats : List String
  headers : List String
deriving DecidableEq

def defaultDoc : Doc := ⟨"", "", [], []⟩

/-- A Jeopardy query: lowercase category, clue, expected answer. -/
structure Query where
  qcat : String
  clue : String
  expected : String
deriving DecidableEq

/-- The run environment: the document store plus the opaque external scoring
services (BM25 scorer, sentence embedder composed with L2 normalization,
FAISS top-`TOP_K` search, per-document embedding rows, cross-encoder). -/
structure Env where
  docs : List Doc
  bm25 : List String → Nat → ℚ
  encode : String → List ℚ
  search : List ℚ → List Nat
  emb : Nat → List ℚ
  crossEnc : String → String → ℚ

/-- `np.dot` on two vectors. -/
def dot (a b : List ℚ) : ℚ := (List.zipWith (fun x y => x * y) a b).sum

/-- The 8-field feature vector `[bmv, dnv, ce, catv, tov, hov, aov, cdv]`;
the cross-encoder slot is `none` until the second batched pass fills it. -/
structure Feat where
  bmv : ℚ
  dnv : ℚ
  cev : Option ℚ
  catv : ℚ
  tov : ℚ
  hov : ℚ
  aov : ℚ
  cdv : ℚ
deriving DecidableEq

/-- One training example row: candidate id, features, CE pair, binary label. -/
structure TrainRow where
  idx : Nat
  feat : Feat
  pair : String × String
  label : Nat
deriving DecidableEq

/-- One evaluation row: candidate id, features, CE pair, candidate title. -/
structure EvalRow where
  idx : Nat
  feat : Feat
  pair : String × String
  cand : String
deriving DecidableEq

/-- The training data-gathering loop body (jeopardy.py lines 109-132) for one
query: BM25 scores over the store, dense search, candidate fusion, and the
per-candidate features, CE pair and label. -/
def trainGather (env : Env) (q : Query) : List TrainRow :=
  let full_query := q.qcat ++ ". " ++ q.clue
  let clue_tokens := tokens q.clue
  let ans_tokens := tokens q.expected
  let bm_scores := env.bm25 clue_tokens
  let top_bm := topK ((List.range env.docs.length).map bm_scores) BM25_K
  let q_emb := env.encode full_query
  let idxs := env.search q_emb
  let union := fuseCandidates idxs top_bm
  union.map (fun idx =>
    let doc := env.docs.getD idx defaultDoc
    let title_tok := tokens doc.title
    let bmv := bm_scores idx
    let dnv := dot q_emb (env.emb idx)
    let catv : ℚ := if q.qcat ∈ doc.cats then 1 else 0
    let cdv : ℚ :=
      if q.qcat ∈ doc.cats then 1 / ((doc.cats.indexOf q.qcat : ℚ) + 1) else 0
    let tov : ℚ := (clue_tokens.countP (fun t => title_tok.contains t) : ℕ)
    let hov : ℚ :=
      ((doc.headers.map
        (fun hdr => clue_tokens.countP (fun t => (pySplit hdr).contains t))).sum : ℕ)
    let aov : ℚ := (ans_tokens.countP (fun t => title_tok.contains t) : ℕ)
    let snippet := String.intercalate " " ((pySplit doc.text).take SNIPPET_WORDS)
    { idx := idx
      feat := ⟨bmv, dnv, none, catv, tov, hov, aov, cdv⟩
      pair := (full_query, snippet)
      label := if lower doc.title = lower q.expected then 1 else 0 })

/-- The evaluation data-gathering loop body (jeopardy.py lines 151-170) for
one query: same retrieval, fusion and features, plus the candidate title. -/
def evalGather (env : Env) (q : Query) : List EvalRow :=
  let full_query := q.qcat ++ ". " ++ q.clue
  let clue_tokens := tokens q.clue
  let ans_tokens := tokens q.expected
  let bm_scores := env.bm25 clue_tokens
  let top_bm := topK ((List.range env.docs.length).map bm_scores) BM25_K
  let q_emb := env.encode full_query
  let idxs := env.search q_emb
  let union := fuseCandidates idxs top_bm
  union.map (fun idx =>
    let doc := env.docs.getD idx defaultDoc
    let title_tok := tokens doc.title
    let bmv := bm_scores idx
    let dnv := dot q_emb (env.emb idx)
    let catv : ℚ := if q.qcat ∈ doc.cats then 1 else 0
    let cdv : ℚ :=
      if q.qcat ∈ doc.cats then 1 / ((doc.cats.indexOf q.qcat : ℚ) + 1) else 0
    let tov : ℚ := (clue_tokens.countP (fun t => title_tok.contains t) : ℕ)
    let hov : ℚ :=
      ((doc.headers.map
        (fun hdr => clue_tokens.countP (fun t => (pySplit hdr).contains t))).sum : ℕ)
    let aov : ℚ := (ans_tokens.countP (fun t => title_tok.contains t) : ℕ)
    let snippet := String.intercalate " " ((pySplit doc.text).take SNIPPET_WORDS)
    { idx := idx
      feat := ⟨bmv, dnv, none, catv, tov, hov, aov, cdv⟩
      pair := (full_query, snippet)
      cand := doc.title })

/-- The second, batched cross-encoder pass of training (lines 134-138): score
all CE pairs in order and fill slot 2 of each feature vector. -/
def trainX (env : Env) (queries : List Query) : List Feat :=
  let rows := (queries.map (trainGather env)).flatten
  let ce_scores := rows.map (fun r => env.crossEnc r.pair.1 r.pair.2)
  (rows.zip ce_scores).map (fun rs => { rs.1.feat with cev := some rs.2 })

/-- The second, batched cross-encoder pass of evaluation (lines 171-174). -/
def evalX (env : Env) (queries : List Query) : List Feat :=
  let rows := (queries.map (evalGather env)).flatten
  let ce_scores := rows.map (fun r => env.crossEnc r.pair.1 r.pair.2)
  (rows.zip ce_scores).map (fun rs => { rs.1.feat with cev := some rs.2 })

theorem zip_self_map {α β γ : Type} (l : List α) (f : α → β) (g : α × β → γ) :
    (l.zip (l.map f)).map g = l.map (fun a => g (a, f a)) := by
  induction l with
  | nil => rfl
  | cons a l ih => simp [ih]

/-- Filling the cross-encoder slot, as a function of the (features, CE pair)
projection of a gathered row. -/
def fillCE (env : Env) (fp : Feat × String × String) : Feat :=
  { fp.1 with cev := some (env.crossEnc fp.2.1 fp.2.2) }

theorem trainGather_proj (env : Env) (q : Query) :
    (trainGather env q).map (fun r => (r.feat, r.pair)) =
      (evalGather env q).map (fun r => (r.feat, r.pair)) := by
  simp only [trainGather, evalGather, List.map_map]
  rfl

theorem trainX_eq_fill (env : Env) (queries : List Query) :
    trainX env queries =
      (queries.map (fun q =>
        (trainGather env q).map (fun r => (r.feat, r.pair)))).flatten.map
        (fillCE env) := by
  unfold trainX
  rw [zip_self_map]
  simp only [List.map_flatten, List.map_map, Function.comp_def]
  rfl

theorem evalX_eq_fill (env : Env) (queries : List Query) :
    evalX env queries =
      (queries.map (fun q =>
        (evalGather env q).map (fun r => (r.feat, r.pair)))).flatten.map
        (fillCE env) := by
  unfold evalX
  rw [zip_self_map]
  simp only [List.map_flatten, List.map_map, Function.comp_def]
  rfl

/-- C6: training and evaluation build the same candidate set per query and
compute identical feature vectors — including the cross-encoder slot filled
by the second batched pass — and identical CE pairs. -/
theorem train_eval_consistent (env : Env) (queries : List Query) (q : Query) :
    (trainGather env q).map (fun r => r.idx) =
      (evalGather env q).map (fun r => r.idx) ∧
    (trainGather env q).map (fun r => (r.feat, r.pair)) =
      (evalGather env q).map (fun r => (r.feat, r.pair)) ∧
    trainX env queries = evalX env queries := by
  refine ⟨?_, trainGather_proj env q, ?_⟩
  · simp only [trainGather, evalGather, List.map_map]
    rfl
  · rw [trainX_eq_fill, evalX_eq_fill]
    congr 1
    congr 1
    exact List.map_congr_left (fun a _ => trainGather_proj env a)

theorem indexOf_eq_of_get? {l : List String} {a : String} {p : Nat}
    (h1 : l.get? p = some a) (h2 : a ∉ l.take p) : l.indexOf a = p := by
  induction l generalizing p with
  | nil => simp at h1
  | cons b t ih =>
    cases p with
    | zero =>
      simp only [List.get?_cons_zero, Option.some.injEq] at h1
      exact List.indexOf_cons_eq t h1
    | succ p =>
      have hne : b ≠ a := by
        intro he
        exact h2 (by rw [List.take_succ_cons]; exact he ▸ List.mem_cons_self b _)
      rw [List.indexOf_cons_ne t hne]
      have h1' : t.get? p = some a := by simpa using h1
      have h2' : a ∉ t.take p := fun hm =>
        h2 (by rw [List.take_succ_cons]; exact List.mem_cons_of_mem _ hm)
      rw [ih h1' h2']

/-- The category features as computed per candidate: `category_match` is 1
iff `category_rank_reciprocal` is positive, and the reciprocal is `1/(1+p)`
at the first position `p` of the query category in the category list. -/
theorem catv_cdv_spec (cats : List String) (qcat : String) :
    ((if qcat ∈ cats then (1 : ℚ) else 0) = 1 ↔
      (if qcat ∈ cats then 1 / ((cats.indexOf qcat : ℚ) + 1) else 0) > 0) ∧
    (∀ p, cats.get? p = some qcat → qcat ∉ cats.take p →
      (if qcat ∈ cats then 1 / ((cats.indexOf qcat : ℚ) + 1) else 0) =
        1 / (1 + (p : ℚ))) ∧
    (qcat ∉ cats →
      (if qcat ∈ cats then 1 / ((cats.indexOf qcat : ℚ) + 1) else 0) = 0) := by
  refine ⟨?_, ?_, ?_⟩
  · by_cases h : qcat ∈ cats
    · simp only [h, if_true]
      constructor
      · intro _
        positivity
      · intro _
        trivial
    · simp [h]
  · intro p h1 h2
    have hmem : qcat ∈ cats := List.get?_mem h1
    rw [if_pos hmem, indexOf_eq_of_get? h1 h2, add_comm]
  · intro h
    simp [h]

/-- C3: in every gathered feature vector, training and evaluation alike,
`category_match = 1` iff `category_rank_reciprocal > 0`; the reciprocal is
`1/(1+p)` when the query category first occurs at 0-based position `p` of the
candidate's category list, and `0` when it is absent. -/
theorem category_feature_consistency (env : Env) (q : Query)
    (r : TrainRow) (s : EvalRow)
    (hr : r ∈ trainGather env q) (hs : s ∈ evalGather env q) :
    ((r.feat.catv = 1 ↔ r.feat.cdv > 0) ∧
      (∀ p, (env.docs.getD r.idx defaultDoc).cats.get? p = some q.qcat →
        q.qcat ∉ (env.docs.getD r.idx defaultDoc).cats.take p →
        r.feat.cdv = 1 / (1 + (p : ℚ))) ∧
      (q.qcat ∉ (env.docs.getD r.idx defaultDoc).cats → r.feat.cdv = 0)) ∧
    ((s.feat.catv = 1 ↔ s.feat.cdv > 0) ∧
      (∀ p, (env.docs.getD s.idx defaultDoc).cats.get? p = some q.qcat →
        q.qcat ∉ (env.docs.getD s.idx defaultDoc).cats.take p →
        s.feat.cdv = 1 / (1 + (p : ℚ))) ∧
      (q.qcat ∉ (env.docs.getD s.idx defaultDoc).cats → s.feat.cdv = 0)) := by
  simp only [trainGather, List.mem_map] at hr
  simp only [evalGather, List.mem_map] at hs
  obtain ⟨idx, hidx, rfl⟩ := hr
  obtain ⟨jdx, hjdx, rfl⟩ := hs
  exact ⟨catv_cdv_spec (env.docs.getD idx defaultDoc).cats q.qcat,
    catv_cdv_spec (env.docs.getD jdx defaultDoc).cats q.qcat⟩

/-- C8: every training example is labelled 1 exactly when the candidate's
title equals the expected answer case-insensitively, else 0. -/
theorem label_spec (env : Env) (q : Query) (r : TrainRow)
    (hr : r ∈ trainGather env q) :
    (lower (env.docs.getD r.idx defaultDoc).title = lower q.expected →
      r.label = 1) ∧
    (lower (env.docs.getD r.idx defaultDoc).title ≠ lower q.expected →
      r.label = 0) := by
  simp only [trainGather, List.mem_map] at hr
  obtain ⟨idx, hidx, rfl⟩ := hr
  dsimp only
  constructor <;> intro h <;> simp_all

/-- C9: with an empty clue, extraction still succeeds on every candidate:
both overlap features are 0, the lexical score is still computed (on the
empty token list) and so is the dense score; the full query handed to the
cross-encoder is `category ++ ". " ++ clue` and the snippet is the body
truncated to `SNIPPET_WORDS` words. Stated for the training pass and the
evaluation pass. -/
theorem empty_clue_spec (env : Env) (qcat exp : String)
    (r : TrainRow) (s : EvalRow)
    (hr : r ∈ trainGather env ⟨qcat, "", exp⟩)
    (hs : s ∈ evalGather env ⟨qcat, "", exp⟩) :
    r.feat.tov = 0 ∧ r.feat.hov = 0 ∧ s.feat.tov = 0 ∧ s.feat.hov = 0 ∧
    r.feat.bmv = env.bm25 [] r.idx ∧
    r.feat.dnv = dot (env.encode (qcat ++ ". " ++ "")) (env.emb r.idx) ∧
    r.pair.1 = qcat ++ ". " ++ "" ∧
    r.pair.2 = String.intercalate " "
      ((pySplit (env.docs.getD r.idx defaultDoc).text).take SNIPPET_WORDS) := by
  have htok : tokens "" = [] := by decide
  simp only [trainGather, List.mem_map] at hr
  simp only [evalGather, List.mem_map] at hs
  obtain ⟨idx, hidx, rfl⟩ := hr
  obtain ⟨jdx, hjdx, rfl⟩ := hs
  refine ⟨?_, ?_, ?_, ?_, ?_, ?_, ?_, ?_⟩ <;>
    simp [htok, List.countP_nil]

/-- A one-document witness environment with constant external services. -/
def wDoc : Doc :=
  { title := "A", text := "alpha beta", cats := ["x", "geo"], headers := ["h one"] }

def wEnv : Env :=
  { docs := [wDoc]
    bm25 := fun _ _ => 0
    encode := fun _ => []
    search := fun _ => [0]
    emb := fun _ => []
    crossEnc := fun _ _ => 0 }

def wQuery : Query := { qcat := "geo", clue := "B", expected := "A" }

def wQueryE : Query := { qcat := "geo", clue := "", expected := "A" }

def wRow0 : TrainRow := ⟨0, ⟨0, 0, none, 0, 0, 0, 0, 0⟩, ("", ""), 0⟩

def wRowE0 : EvalRow := ⟨0, ⟨0, 0, none, 0, 0, 0, 0, 0⟩, ("", ""), ""⟩

def wTrainRow : TrainRow := (trainGather wEnv wQuery).getD 0 wRow0

def wEvalRow : EvalRow := (evalGather wEnv wQuery).getD 0 wRowE0

def wTrainRowE : TrainRow := (trainGather wEnv wQueryE).getD 0 wRow0

def wEvalRowE : EvalRow := (evalGather wEnv wQueryE).getD 0 wRowE0

/-- Witness for `category_feature_consistency`: the query category "geo"
sits at 0-based position 1 of the witness document's category list, so the
reciprocal is 1/2 and it agrees with `category_match`. -/
theorem category_feature_consistency_witness :
    (wTrainRow.feat.catv = 1 ↔ wTrainRow.feat.cdv > 0) ∧
    wTrainRow.feat.cdv = 1 / (1 + (1 : ℚ)) := by
  have hr : wTrainRow ∈ trainGather wEnv wQuery := List.mem_cons_self _ _
  have hs : wEvalRow ∈ evalGather wEnv wQuery := List.mem_cons_self _ _
  have h := category_feature_consistency wEnv wQuery wTrainRow wEvalRow hr hs
  exact ⟨h.1.1, h.1.2.1 1 rfl (by decide)⟩

/-- Witness for `label_spec`: the witness candidate's title "A" equals the
expected answer "A", so its label is 1. -/
theorem label_spec_witness : wTrainRow.label = 1 :=
  (label_spec wEnv wQuery wTrainRow (List.mem_cons_self _ _)).1 rfl

/-- Witness for `empty_clue_spec` on the witness environment with an empty
clue. -/
theorem empty_clue_spec_witness :
    wTrainRowE.feat.tov = 0 ∧ wTrainRowE.feat.hov = 0 ∧
    wEvalRowE.feat.tov = 0 ∧ wEvalRowE.feat.hov = 0 ∧
    wTrainRowE.feat.bmv = wEnv.bm25 [] wTrainRowE.idx ∧
    wTrainRowE.feat.dnv =
      dot (wEnv.encode ("geo" ++ ". " ++ "")) (wEnv.emb wTrainRowE.idx) ∧
    wTrainRowE.pair.1 = "geo" ++ ". " ++ "" ∧
    wTrainRowE.pair.2 = String.intercalate " "
      ((pySplit (wEnv.docs.getD wTrainRowE.idx defaultDoc).text).take
        SNIPPET_WORDS) :=
  empty_clue_spec wEnv "geo" "A" wTrainRowE wEvalRowE
    (List.mem_cons_self _ _) (List.mem_cons_self _ _)

/-- Comparison of Python `sorted(preds[i], key=lambda x: x[1], reverse=True)`:
by probability descending; the sort is stable. -/
def rankRel (a b : String × ℚ) : Prop := b.2 ≤ a.2

instance rankRelDecidable : DecidableRel rankRel :=
  fun a b => inferInstanceAs (Decidable (b.2 ≤ a.2))

/-- Ranking one query's candidates (jeopardy.py line 179): titles sorted by
predicted probability descending, stable on fusion order, truncated to
`TOP_K`. -/
def rankQuery (preds : List (String × ℚ)) : List String :=
  ((preds.insertionSort rankRel).map Prod.fst).take TOP_K

theorem rankRel_total : ∀ a b : String × ℚ, rankRel a b ∨ rankRel b a :=
  fun a b => (le_total b.2 a.2).imp (fun h => h) (fun h => h)

theorem rankRel_trans : ∀ {a b c : String × ℚ},
    rankRel a b → rankRel b c → rankRel a c :=
  fun hab hbc => le_trans hbc hab

/-- C5: the ranked result is the candidate list stably sorted by probability
descending then truncated to `TOP_K`: the sorted list is a permutation of
the input, is sorted by descending probability, and candidates of any equal
probability keep their original fusion order (equal-probability filters
coincide). -/
theorem rankQuery_spec (preds : List (String × ℚ)) :
    (preds.insertionSort rankRel).Perm preds ∧
    (preds.insertionSort rankRel).Pairwise (fun a b => b.2 ≤ a.2) ∧
    (∀ p : ℚ, (preds.insertionSort rankRel).filter (fun x => x.2 == p) =
      preds.filter (fun x => x.2 == p)) ∧
    rankQuery preds = ((preds.insertionSort rankRel).map Prod.fst).take TOP_K := by
  haveI : IsTotal (String × ℚ) rankRel := ⟨rankRel_total⟩
  haveI : IsTrans (String × ℚ) rankRel := ⟨fun _ _ _ => rankRel_trans⟩
  refine ⟨List.perm_insertionSort _ _, ?_, ?_, rfl⟩
  · exact List.sorted_insertionSort rankRel preds
  intro p
  set c := preds.filter (fun x => x.2 == p) with hc
  have hcp : ∀ x ∈ c, x.2 = p := by
    intro x hx
    have := (List.mem_filter.mp hx).2
    exact eq_of_beq this
  have hpw : c.Pairwise rankRel := by
    apply List.pairwise_of_forall_mem_list
    intro a ha b hb
    unfold rankRel
    rw [hcp a ha, hcp b hb]
  have hsub : c.Sublist (preds.insertionSort rankRel) :=
    List.sublist_insertionSort hpw (List.filter_sublist preds)
  have hsub2 : c.Sublist ((preds.insertionSort rankRel).filter (fun x => x.2 == p)) := by
    have := hsub.filter (fun x => x.2 == p)
    rwa [List.filter_eq_self.mpr (fun a ha => (List.mem_filter.mp ha).2)] at this
  have hlen : ((preds.insertionSort rankRel).filter (fun x => x.2 == p)).length
      = c.length :=
    ((List.perm_insertionSort rankRel preds).filter _).length_eq
  exact (hsub2.eq_of_length hlen.symm).symm

/-- expected feature dimension asserted at model load (jeopardy.py line 199). -/
def expected_dim : Nat := 8

/-- The load-or-retrain decision of `__main__` (lines 199-211): `true` means
retrain. `coefWidth` is `ranker.coef_.shape[1]` when the loaded object has a
`coef_` attribute, else `none`; `fileExists` is `os.path.exists(RANKER_FILE)`.
Every branch just sets a flag — no error is raised. -/
def needTrain (fileExists : Bool) (coefWidth : Option Nat) : Bool :=
  if fileExists then
    match coefWidth with
    | some w => if w = expected_dim then false else true
    | none => true
  else true

/-- The ranker used downstream (lines 211-214): the cached model when no
retraining is needed, else the freshly trained one. -/
def chooseRanker {α : Type} (fileExists : Bool) (coefWidth : Option Nat)
    (cached trained : α) : α :=
  if needTrain fileExists coefWidth then trained else cached

/-- C7: a loaded ranker's feature width is checked against `expected_dim = 8`;
on a match the cached model is used without retraining, on a mismatch (or a
missing `coef_`) the ranker is retrained — the decision is total, so no error
is surfaced to the caller. -/
theorem ranker_reload_policy {α : Type} (cached trained : α) (w : Nat) :
    expected_dim = 8 ∧
    (needTrain true (some expected_dim) = false ∧
      chooseRanker true (some expected_dim) cached trained = cached) ∧
    (w ≠ expected_dim →
      needTrain true (some w) = true ∧
      chooseRanker true (some w) cached trained = trained) ∧
    needTrain true none = true := by
  refine ⟨rfl, ⟨rfl, rfl⟩, ?_, rfl⟩
  intro hw
  have h1 : needTrain true (some w) = true := by
    unfold needTrain
    simp [hw]
  exact ⟨h1, by unfold chooseRanker; rw [h1]; rfl⟩

/-- Witness for `ranker_reload_policy` at width 7 ≠ 8. -/
theorem ranker_reload_policy_witness :
    needTrain true (some 7) = true ∧
    chooseRanker true (some 7) (0 : Nat) 1 = 1 :=
  (ranker_reload_policy (0 : Nat) 1 7).2.2.1 (by decide)

/-- Per-query reciprocal-rank loop (jeopardy.py lines 181-183): scan ranks
`j, j+1, ...`, return `1/j` at the first case-insensitive title match, else 0. -/
def firstRR : List String → String → Nat → ℚ
  | [], _, _ => 0
  | t :: ts, e, j =>
    if lower t = lower e then 1 / (j : ℚ) else firstRR ts e (j + 1)

/-- Top-1 correctness of one query (line 180): 1 if the ranked list is
nonempty and its head matches the expected answer case-insensitively. -/
def topCorrect (ranked : List String) (e : String) : Nat :=
  match ranked with
  | [] => 0
  | t :: _ => if lower t = lower e then 1 else 0

/-- The metric accumulation and final division (lines 177-187): `corr` and
`rr` summed over the queries, then both divided by the number of queries.
Python raises ZeroDivisionError on zero queries; that is modelled as `none`. -/
def metricsOf (items : List (List String × String)) : Option (ℚ × ℚ) :=
  let acc := items.foldl (fun acc it =>
    (acc.1 + topCorrect it.1 it.2, acc.2 + firstRR it.1 it.2 1)) ((0 : Nat), (0 : ℚ))
  let tot := items.length
  if tot = 0 then none
  else some (((acc.1 : ℕ) : ℚ) / (tot : ℚ), acc.2 / (tot : ℚ))

/-- Spec-side predicate: the query's top-ranked title matches the expected
answer (case-insensitive exact string match). -/
def p1Pred (it : List String × String) : Bool :=
  match it.1.head? with
  | some t => decide (lower t = lower it.2)
  | none => false

/-- Spec-side Precision@1: the fraction of queries whose top-ranked title
matches the expected answer. -/
def prec1Spec (items : List (List String × String)) : ℚ :=
  ((items.countP p1Pred : ℕ) : ℚ) / (items.length : ℚ)

/-- Spec-side reciprocal rank: `1/(i+1)` at the 0-based index of the first
correct title in the (already truncated) ranked list, 0 when absent. -/
def rrSpec (ranked : List String) (e : String) : ℚ :=
  match ranked.findIdx? (fun t => decide (lower t = lower e)) with
  | some i => 1 / ((i : ℚ) + 1)
  | none => 0

/-- Spec-side Mean Reciprocal Rank: the average over queries of `rrSpec`. -/
def mrrSpec (items : List (List String × String)) : ℚ :=
  (items.map (fun it => rrSpec it.1 it.2)).sum / (items.length : ℚ)

theorem firstRR_shift (ranked : List String) (e : String) (j : Nat) :
    firstRR ranked e j =
      match ranked.findIdx? (fun t => decide (lower t = lower e)) with
      | some i => 1 / ((i : ℚ) + (j : ℚ))
      | none => 0 := by
  induction ranked generalizing j with
  | nil => rfl
  | cons t ts ih =>
    by_cases h : lower t = lower e
    · rw [firstRR, if_pos h]
      rw [List.findIdx?_cons, if_pos (decide_eq_true h)]
      norm_num
    · rw [firstRR, if_neg h, ih (j + 1)]
      rw [List.findIdx?_cons, if_neg (by simp [h])]
      cases hfind : ts.findIdx? (fun t => decide (lower t = lower e)) with
      | none => simp [List.findIdx?_start_succ, hfind]
      | some i =>
        simp only [List.findIdx?_start_succ, hfind, Option.map_some']
        push_cast
        ring_nf

theorem firstRR_one (ranked : List String) (e : String) :
    firstRR ranked e 1 = rrSpec ranked e := by
  rw [firstRR_shift, rrSpec]
  cases ranked.findIdx? (fun t => decide (lower t = lower e)) with
  | none => rfl
  | some i => norm_num

theorem topCorrect_eq (ranked : List String) (e : String) :
    topCorrect ranked e = if p1Pred (ranked, e) then 1 else 0 := by
  cases ranked with
  | nil => rfl
  | cons t ts => by_cases h : lower t = lower e <;> simp [topCorrect, p1Pred, h]

theorem metrics_foldl (items : List (List String × String)) (c0 : Nat) (r0 : ℚ) :
    items.foldl (fun acc it =>
      (acc.1 + topCorrect it.1 it.2, acc.2 + firstRR it.1 it.2 1)) (c0, r0) =
    (c0 + items.countP p1Pred,
      r0 + (items.map (fun it => firstRR it.1 it.2 1)).sum) := by
  induction items generalizing c0 r0 with
  | nil => simp
  | cons it items ih =>
    rw [List.foldl_cons, ih]
    apply Prod.ext
    · simp only [List.countP_cons, topCorrect_eq, Prod.mk.eta]
      omega
    · simp only [List.map_cons, List.sum_cons]
      ring

/-- C2: on a nonempty query set, the evaluator returns exactly Precision@1 =
fraction of queries whose top-ranked title matches the expected answer
(case-insensitive), and MRR = average over queries of 1/rank of the first
correct title (0 when absent). -/
theorem evaluator_metrics (items : List (List String × String))
    (h : items ≠ []) :
    metricsOf items = some (prec1Spec items, mrrSpec items) := by
  unfold metricsOf
  rw [metrics_foldl]
  have hlen : items.length ≠ 0 := fun hz => h (List.length_eq_zero.mp hz)
  rw [if_neg hlen]
  apply congrArg
  apply Prod.ext
  · simp [prec1Spec]
  · simp only [mrrSpec, firstRR_one, zero_add]

/-- Witness for `evaluator_metrics` on the spec's worked example:
ranked lists `[["B","A","C"], ["A"]]`, expected answers `["A","A"]`,
giving Precision@1 = 1/2 and MRR = 3/4. -/
theorem evaluator_metrics_witness :
    metricsOf [(["B", "A", "C"], "A"), (["A"], "A")] = some (1 / 2, 3 / 4) := by
  rw [evaluator_metrics [(["B", "A", "C"], "A"), (["A"], "A")] (by simp)]
  have hp : prec1Spec [(["B", "A", "C"], "A"), (["A"], "A")] =
      ((1 : ℕ) : ℚ) / ((2 : ℕ) : ℚ) := rfl
  have hm : mrrSpec [(["B", "A", "C"], "A"), (["A"], "A")] =
      (1 / (((1 : ℕ) : ℚ) + 1) + (1 / (((0 : ℕ) : ℚ) + 1) + 0)) / ((2 : ℕ) : ℚ) := rfl
  rw [hp, hm]
  norm_num

/-- C10: on an empty query sequence the evaluator divides by the query count
with no guard: the division by zero is a failure (modelled as `none`), not a
defined value. -/
theorem metrics_empty_queries : metricsOf [] = none := rfl

end Jeopardy
